import Mathlib

/-!
Verification of the comment-indexing pipeline of this repository.

The development shallowly embeds the Python sources:
  * `organize_comments_static.py` — aggregation (`parse_json_files`),
    deduplication (`deduplicate_comments`), chunking (`create_chunked_files`)
    and summary emission (`create_index_files`);
  * `analyze_comments.py` — the per-file analysis loop (`analyze_json_file`);
  * `preindex_comments.py` — the search index (`create_search_index`) and the
    liked-words part of the word-frequency index (`create_word_frequency_index`).

JSON values decoded by `json.load` are modelled by `JValue`; Python-level
dynamic shape checks (`isinstance(..., dict)` and so on) are translated as
pattern matches on `JValue`.  Machine-independent caveats of the embedding are
noted at the definitions they concern (ASCII fragment of `str.lower` and of
the regex character classes, insertion-ordered model of `set`).
-/

mutual
/-- A decoded JSON value (the result of `json.load`).  `arr`/`obj` use the
mutually defined list types `JArray`/`JObject` so that decidable equality can
be derived. -/
inductive JValue where
  | null
  | bool (b : Bool)
  | num (n : Int)
  | str (s : String)
  | arr (elems : JArray)
  | obj (fields : JObject)
deriving DecidableEq
inductive JArray where
  | nil
  | cons (head : JValue) (tail : JArray)
deriving DecidableEq
inductive JObject where
  | nil
  | cons (key : String) (val : JValue) (tail : JObject)
deriving DecidableEq
end

/-- The elements of a JSON array, as a Lean list. -/
def JArray.toList : JArray → List JValue
  | .nil => []
  | .cons h t => h :: t.toList

/-- Build a JSON array from a Lean list. -/
def JArray.ofList : List JValue → JArray
  | [] => .nil
  | h :: t => .cons h (JArray.ofList t)

/-- The key/value pairs of a JSON object, as a Lean list. -/
def JObject.toList : JObject → List (String × JValue)
  | .nil => []
  | .cons k v t => (k, v) :: t.toList

/-- Build a JSON object from a Lean list of key/value pairs. -/
def JObject.ofList : List (String × JValue) → JObject
  | [] => .nil
  | (k, v) :: t => .cons k v (JObject.ofList t)

/-- Shorthand for a JSON array literal. -/
def jArr (xs : List JValue) : JValue := .arr (JArray.ofList xs)

/-- Shorthand for a JSON object literal. -/
def jObj (kvs : List (String × JValue)) : JValue := .obj (JObject.ofList kvs)

/-- Python `d.get(key, default)` on a decoded JSON object (`json.load` output
has unique keys, so first-match lookup is the dictionary lookup). -/
def JObject.getD : JObject → String → JValue → JValue
  | .nil, _, d => d
  | .cons k v t, key, d => if k = key then v else JObject.getD t key d

/-- Python truthiness of a decoded JSON value (`if shortcode:`). -/
def jTruthy : JValue → Bool
  | .null => false
  | .bool b => b
  | .num n => n != 0
  | .str s => s != ""
  | .arr .nil => false
  | .arr _ => true
  | .obj .nil => false
  | .obj _ => true

/-- Whether a decoded JSON value is hashable in Python (usable as a `dict` key
or `set` element): lists and dicts are not, the scalar values are. -/
def jHashable : JValue → Bool
  | .arr _ => false
  | .obj _ => false
  | _ => true

/-- Python iteration `for x in v` over a decoded JSON value: a list yields its
elements, a dict its keys, a string its characters (as 1-character strings);
the remaining values are not iterable (`TypeError`), modelled as `none`. -/
def iterElems : JValue → Option (List JValue)
  | .arr a => some a.toList
  | .obj o => some (o.toList.map (fun kv => JValue.str kv.1))
  | .str s => some (s.data.map (fun c => JValue.str (String.mk [c])))
  | _ => none

/-- Recursion core of `dedupFirst`: `seen` is the set of keys already present
in the dictionary `dict.fromkeys` is building. -/
def dedupFirstAux [DecidableEq α] (seen : List α) : List α → List α
  | [] => []
  | x :: xs =>
    if x ∈ seen then dedupFirstAux seen xs else x :: dedupFirstAux (x :: seen) xs

/-- Python `list(dict.fromkeys(comments))` from `deduplicate_comments`
(organize_comments_static.py line 80): keep the first occurrence of each
value, in encounter order. -/
def dedupFirst [DecidableEq α] (l : List α) : List α := dedupFirstAux [] l

/-- Stable insertion of `x` into `acc` for a descending sort by `key`: `x`
lands after every element whose key is at least `key x`. -/
def insertDescBy [LinearOrder β] (key : α → β) (x : α) : List α → List α
  | [] => [x]
  | y :: ys => if key y < key x then x :: y :: ys else y :: insertDescBy key x ys

/-- Python `list.sort(key=..., reverse=True)` / `sorted(..., key=...,
reverse=True)`: a stable sort placing larger keys first; equal keys keep
their input order (Python's sort is documented stable, also under
`reverse=True`).  Modelled by stable insertion sort, which has exactly
these two characterizing properties. -/
def sortDescBy [LinearOrder β] (key : α → β) (l : List α) : List α :=
  l.foldl (fun acc x => insertDescBy key x acc) []

namespace Org

/-- The aggregation mapping `shortcode_comments` of
`StaticCommentOrganizer.parse_json_files`: a `defaultdict(list)` keyed by the
entry's `target` value, modelled as an insertion-ordered association list
(Python dictionaries preserve key insertion order). -/
abbrev OrgMap := List (JValue × List JValue)

/-- Append `ids` to the list stored under `k`, creating the key at the end of
the dictionary if absent: `shortcode_comments[shortcode].extend(comment_ids)`
on a `defaultdict(list)`. -/
def orgExtend (m : OrgMap) (k : JValue) (ids : List JValue) : OrgMap :=
  match m with
  | [] => [(k, ids)]
  | (k', v) :: rest =>
    if k' = k then (k', v ++ ids) :: rest else (k', v) :: orgExtend rest k ids

/-- Dictionary lookup in the aggregation mapping. -/
def lookupOrg (m : OrgMap) (k : JValue) : Option (List JValue) :=
  match m with
  | [] => none
  | (k', v) :: rest => if k' = k then some v else lookupOrg rest k

/-- The `storedIds` list of one log record, when the code's shape checks pass:
`if isinstance(log, dict)` and `isinstance(log.get('storedIds', []), list)`.
`none` means the log contributes nothing (and the `shortcode_comments` access
is never reached for it). -/
def logStoredIds (log : JValue) : Option (List JValue) :=
  match log with
  | .obj fields =>
    match fields.getD "storedIds" (.arr .nil) with
    | .arr ids => some ids.toList
    | _ => none
  | _ => none

/-- Process one entry of `parse_json_files` (organize_comments_static.py lines
53-63).  The `Bool` is `false` when the entry raises (`TypeError` from
iterating a non-iterable `logs`, or from using an unhashable `target` as the
dictionary key); the surrounding per-file `try` then abandons the file while
keeping the mapping built so far. -/
def orgEntry (m : OrgMap) (entry : JValue) : OrgMap × Bool :=
  match entry with
  | .obj fields =>
    let sc := fields.getD "target" (.str "")
    if jTruthy sc then
      match iterElems (fields.getD "logs" (.arr .nil)) with
      | none => (m, false)
      | some logs =>
        if jHashable sc then
          (logs.foldl
            (fun acc log =>
              match logStoredIds log with
              | some ids => orgExtend acc sc ids
              | none => acc) m, true)
        else if logs.any (fun log => (logStoredIds log).isSome) then (m, false)
        else (m, true)
    else (m, true)
  | _ => (m, true)

/-- Process the entries of one JSON file (`for uuid, entry in data.items()`),
stopping at the first raising entry — the per-file `except` clause skips the
rest of the file but keeps the shared mapping mutated so far. -/
def orgFile (m : OrgMap) : List (String × JValue) → OrgMap
  | [] => m
  | (_, e) :: rest =>
    let r := orgEntry m e
    if r.2 then orgFile r.1 rest else r.1

/-- `StaticCommentOrganizer.parse_json_files` over already-decoded files: the
shared mapping accumulates across all files. -/
def parse_json_files (files : List (List (String × JValue))) : OrgMap :=
  files.foldl orgFile []

/-- `StaticCommentOrganizer.deduplicate_comments` (lines 74-86): the loop
writes `shortcode_comments[shortcode] = list(dict.fromkeys(comments))` back
into the argument dictionary for every key and then returns that same
dictionary.  In this state-passing embedding the result is both the returned
mapping and the post-call state of the argument (they are one object). -/
def deduplicate_comments (m : OrgMap) : OrgMap :=
  m.map (fun p => (p.1, dedupFirst p.2))

/-- `self.chunk_size` (organize_comments_static.py line 17). -/
def chunkSize : Nat := 1000

/-- Python `range(0, stop, step)` for positive `step`: the multiples of
`step` below `stop`. -/
def rangeStep (stop step : Nat) : List Nat :=
  (List.range ((stop + step - 1) / step)).map (fun k => k * step)

/-- One chunk artifact `chunk_data` as written to `chunk_{index}.json`
(lines 109-114). -/
structure ChunkData where
  shortcode : String
  chunk_index : Nat
  comment_ids : List String
  count : Nat
deriving DecidableEq, Repr

/-- One chunk descriptor appended to the per-post `chunks` list
(lines 120-124). -/
structure ChunkDescr where
  index : Nat
  count : Nat
  file : String
deriving DecidableEq, Repr

/-- The per-post entry of `index_data['posts']` (lines 129-133). -/
structure PostEntry where
  shortcode : String
  total_comments : Nat
  chunks : List ChunkDescr
  chunk_count : Nat
deriving DecidableEq, Repr

/-- `index_data['stats']` (lines 140-142). -/
structure RunStats where
  total_posts : Nat
  total_comments : Nat
  total_chunks : Nat
deriving DecidableEq, Repr

/-- `self.index_data` after `create_chunked_files`; `posts` is an
insertion-ordered dictionary. -/
structure IndexData where
  posts : List PostEntry
  stats : RunStats
deriving DecidableEq, Repr

/-- The chunk artifacts of one post: the loop
`for i in range(0, len(comments), self.chunk_size)` with
`chunk = comments[i:i + self.chunk_size]` and `chunk_index = i // self.chunk_size`. -/
def chunkDataList (s : String) (l : List String) : List ChunkData :=
  (rangeStep l.length chunkSize).map (fun i =>
    let chunk := (l.drop i).take chunkSize
    { shortcode := s, chunk_index := i / chunkSize, comment_ids := chunk,
      count := chunk.length })

/-- The descriptor recorded in the index for a chunk artifact (lines 120-124). -/
def mkChunkDescr (c : ChunkData) : ChunkDescr :=
  { index := c.chunk_index, count := c.count,
    file := "posts/" ++ c.shortcode ++ "/chunk_" ++ toString c.chunk_index ++ ".json" }

/-- `StaticCommentOrganizer.create_chunked_files` (lines 88-142): posts with an
empty comment list are skipped (`if not comments: continue`); for the rest, the
chunk artifacts are written (collected here as the second component) and an
index entry is recorded; the run accumulators become `index_data['stats']`. -/
def create_chunked_files (posts : List (String × List String)) :
    IndexData × List ChunkData :=
  let kept := posts.filter (fun p => !p.2.isEmpty)
  let entries := kept.map (fun p =>
    { shortcode := p.1, total_comments := p.2.length,
      chunks := (chunkDataList p.1 p.2).map mkChunkDescr,
      chunk_count := (chunkDataList p.1 p.2).length : PostEntry })
  ({ posts := entries,
     stats :=
       { total_posts := entries.length,
         total_comments := (kept.map (fun p => p.2.length)).sum,
         total_chunks := (kept.map (fun p => (chunkDataList p.1 p.2).length)).sum } },
   (kept.map (fun p => chunkDataList p.1 p.2)).flatten)

/-- One element of the `summary.json` post list (lines 159-162). -/
structure SummaryEntry where
  shortcode : String
  comment_count : Nat
deriving DecidableEq, Repr

/-- The content of `summary.json` (lines 166-171). -/
structure Summary where
  posts : List SummaryEntry
  stats : RunStats
deriving DecidableEq, Repr

/-- The summary entry built from an index entry (lines 158-162). -/
def toSummaryEntry (d : PostEntry) : SummaryEntry :=
  { shortcode := d.shortcode, comment_count := d.total_comments }

/-- `StaticCommentOrganizer.create_index_files` (lines 147-171), the
`summary.json` part: the post list in index order, sorted by
`post_list.sort(key=lambda x: x['comment_count'], reverse=True)`. -/
def create_index_files (idx : IndexData) : Summary :=
  { posts := sortDescBy (fun e => e.comment_count) (idx.posts.map toSummaryEntry),
    stats := idx.stats }

end Org

namespace Analyze

/-- The local state of `analyze_json_file` (analyze_comments.py lines 21-24):
`shortcode_to_comments` is a `defaultdict(set)` — here an insertion-ordered
association list whose values are duplicate-free insertion-ordered lists (a
deterministic refinement of Python's unordered sets: all set-level
observations agree). -/
structure AnalyzeState where
  shortcode_to_comments : List (JValue × List JValue)
  all_comment_ids : List JValue
  total_entries : Nat
  error_entries : Nat
deriving DecidableEq

/-- The state at the top of `analyze_json_file`. -/
def initState : AnalyzeState :=
  { shortcode_to_comments := [], all_comment_ids := [], total_entries := 0,
    error_entries := 0 }

/-- Add one element to the insertion-ordered model of a Python set. -/
def setInsert (s : List JValue) (x : JValue) : List JValue :=
  if x ∈ s then s else s ++ [x]

/-- Python `s.update(xs)`: elements are added one by one; hitting an
unhashable element raises `TypeError` (`false`), keeping the elements already
added. -/
def setUpdate (s : List JValue) : List JValue → List JValue × Bool
  | [] => (s, true)
  | x :: xs => if jHashable x then setUpdate (setInsert s x) xs else (s, false)

/-- `shortcode_to_comments[shortcode].update(comment_ids)` on the
`defaultdict(set)`: the key is created at first access, then updated; the
`Bool` is `false` when the update raises part-way. -/
def dictSetUpdate (m : List (JValue × List JValue)) (k : JValue)
    (ids : List JValue) : List (JValue × List JValue) × Bool :=
  match m with
  | [] =>
    let r := setUpdate [] ids
    ([(k, r.1)], r.2)
  | (k', v) :: rest =>
    if k' = k then
      let r := setUpdate v ids
      ((k', r.1) :: rest, r.2)
    else
      let r := dictSetUpdate rest k ids
      ((k', v) :: r.1, r.2)

/-- One iteration of `for log in logs` (analyze_comments.py lines 55-60): when
the shape checks pass, the set under `shortcode` is updated and then
`all_comment_ids` is extended.  `false` marks a raise (unhashable `shortcode`
used as a dictionary key, or an unhashable id inside `storedIds`): the
extension of `all_comment_ids` is then not reached. -/
def aLogStep (st : AnalyzeState) (sc : JValue) (log : JValue) :
    AnalyzeState × Bool :=
  match Org.logStoredIds log with
  | none => (st, true)
  | some ids =>
    if jHashable sc then
      let r := dictSetUpdate st.shortcode_to_comments sc ids
      if r.2 then
        ({ st with shortcode_to_comments := r.1,
                   all_comment_ids := st.all_comment_ids ++ ids }, true)
      else ({ st with shortcode_to_comments := r.1 }, false)
    else (st, false)

/-- The `for log in logs` loop, abandoned at the first raising log. -/
def aLogs (st : AnalyzeState) (sc : JValue) : List JValue → AnalyzeState × Bool
  | [] => (st, true)
  | log :: rest =>
    let r := aLogStep st sc log
    if r.2 then aLogs r.1 sc rest else (r.1, false)

/-- One iteration of `for key, entry in items` (analyze_comments.py lines
40-63): `total_entries` counts every entry; a non-dict entry counts as an
error; otherwise ids are collected only when `target` is truthy, `logs` is a
list and the logs pass their own shape checks — a `logs` value of any other
type is skipped silently.  An exception inside the body (only possible from
unhashable values) is caught by the per-entry `except`, counting an error. -/
def analyze_entry (st : AnalyzeState) (entry : JValue) : AnalyzeState :=
  let st := { st with total_entries := st.total_entries + 1 }
  match entry with
  | .obj fields =>
    let sc := fields.getD "target" (.str "")
    if jTruthy sc then
      match fields.getD "logs" (.arr .nil) with
      | .arr logs =>
        let r := aLogs st sc logs.toList
        if r.2 then r.1
        else { r.1 with error_entries := r.1.error_entries + 1 }
      | _ => st
    else st
  | _ => { st with error_entries := st.error_entries + 1 }

/-- `analyze_json_file` (analyze_comments.py lines 17-77) over the decoded
items of one file (`data.items()`, or the enumerated list). -/
def analyze_json_file (items : List (String × JValue)) : AnalyzeState :=
  items.foldl (fun st kv => analyze_entry st kv.2) initState

end Analyze

namespace Preindex

/-- One element of `data/comments.json` with the fields the indexing code
reads; `.get` defaults concern absent fields only, which the record model
leaves out of scope. -/
structure EngagementRecord where
  video_id : String
  comment_id : String
  text : String
  author_display_name : String
  like_count : Int
  published_at : String
  published_at_timestamp : Int
deriving DecidableEq, Repr

/-- Python `str.lower()`, on the ASCII fragment (`Char.toLower` lowers exactly
the ASCII uppercase letters; the inputs of interest are ASCII). -/
def toLowerStr (s : String) : String := String.mk (s.data.map Char.toLower)

/-- A regex word character (`\w`, hence also the `\b` boundary class) on the
ASCII fragment: letters, digits and underscore. -/
def isWordChar (c : Char) : Bool := c.isAlphanum || c = '_'

/-- Split a character list into its maximal runs of characters satisfying
`p`; `cur` holds the current run reversed. -/
def runsAux (p : Char → Bool) (cur : List Char) : List Char → List (List Char)
  | [] => if cur.isEmpty then [] else [cur.reverse]
  | c :: cs =>
    if p c then runsAux p (c :: cur) cs
    else if cur.isEmpty then runsAux p [] cs
    else cur.reverse :: runsAux p [] cs

/-- Python `re.findall(r'\b[a-zA-Z]{3,}\b', text.lower())`: on the lowered
text, a match is a maximal run of word characters that consists of letters
only and has length at least 3 (a shorter or mixed run cannot satisfy the
boundary assertions). -/
def tokenize (s : String) : List String :=
  ((runsAux isWordChar [] (toLowerStr s).data).filter
      (fun run => decide (3 ≤ run.length) && run.all Char.isAlpha)).map String.mk

/-- The stop-word set of `create_word_frequency_index` (preindex_comments.py
lines 69-81), transcribed verbatim (the Python set literal repeats 'her' and
'were'; as a set they occur once). -/
def stop_words : List String :=
  ["the", "a", "an", "and", "or", "but", "in", "on", "at", "to", "for", "of",
   "with", "by", "from", "up", "about", "into", "through", "during", "before",
   "after", "above", "below", "between", "among", "throughout", "alongside",
   "towards", "i", "you", "he", "she", "it", "we", "they", "me", "him", "her",
   "us", "them", "my", "your", "his", "its", "our", "their", "mine", "yours",
   "hers", "ours", "theirs", "am", "is", "are", "was", "were", "be", "been",
   "being", "have", "has", "had", "do", "does", "did", "will", "would",
   "could", "should", "may", "might", "must", "this", "that", "these",
   "those", "here", "there", "where", "when", "why", "how", "what", "who",
   "which", "whose", "whom", "not", "no", "yes", "can", "cant", "dont",
   "wont", "im", "youre", "hes", "shes", "theyre", "ive", "youve", "also",
   "just", "really", "very", "so", "too", "now", "then", "well", "still"]

/-- Membership in the stop-word set. -/
def isStopWord (w : String) : Bool := w ∈ stop_words

/-- Append one like-count sample under `w` in the `defaultdict(list)`
`word_like_totals`. -/
def wltExtend (m : List (String × List Int)) (w : String) (n : Int) :
    List (String × List Int) :=
  match m with
  | [] => [(w, [n])]
  | (w', v) :: rest =>
    if w' = w then (w', v ++ [n]) :: rest else (w', v) :: wltExtend rest w n

/-- `word_like_totals` (preindex_comments.py lines 116-121): for every comment
of the liked subset, every non-stop-word occurrence of a token appends that
comment's like count — one sample per occurrence, as the code iterates
`re.findall`'s full match list. -/
def word_like_totals (top_liked : List EngagementRecord) :
    List (String × List Int) :=
  top_liked.foldl
    (fun m c =>
      (tokenize c.text).foldl
        (fun acc w => if isStopWord w then acc else wltExtend acc w c.like_count)
        m)
    []

/-- Python `round(sum(like_counts) / len(like_counts))` for positive integer
samples, modelled as exact rational rounding half-to-even (float division is
exact at the magnitudes involved; `round` on a float ties to even). -/
def roundHalfEven (total : Int) (n : Nat) : Int :=
  let d : Int := n
  let q := total.fdiv d
  let r := total.fmod d
  if 2 * r < d then q
  else if d < 2 * r then q + 1
  else if q % 2 = 0 then q else q + 1

/-- One entry of the emitted `liked_words` list (preindex_comments.py lines
136-137). -/
structure LikedWord where
  word : String
  avgLikes : Int
  count : Nat
deriving DecidableEq, Repr

/-- The liked-words branch of `create_word_frequency_index` for one video's
comment list (preindex_comments.py lines 103-132): comments with positive
like count, sorted descending by like count; the top `max(1, n // 5)` form
the liked subset; words with at least 2 like-count samples are ranked by
rounded average sample, descending, top 15.  (Lines 111-113 compute
`liked_filtered`, which the function never uses; it is omitted here.) -/
def liked_words_profile (video_comment_list : List EngagementRecord) :
    List LikedWord :=
  let liked_comments :=
    sortDescBy (fun c => c.like_count)
      (video_comment_list.filter (fun c => 0 < c.like_count))
  let top_liked := liked_comments.take (max 1 (liked_comments.length / 5))
  if top_liked.isEmpty then []
  else
    let averages :=
      ((word_like_totals top_liked).filter (fun p => decide (2 ≤ p.2.length))).map
        (fun p =>
          { word := p.1, avgLikes := roundHalfEven p.2.sum p.2.length,
            count := p.2.length : LikedWord })
    (sortDescBy (fun w => w.avgLikes) averages).take 15

/-- One value of the search index (preindex_comments.py lines 51-59). -/
structure SearchEntry where
  words : List String
  text : String
  author : String
  video_id : String
  like_count : Int
  published_at : String
  published_at_timestamp : Int
deriving DecidableEq, Repr

/-- Python `str.split()` with no separator: the maximal runs of
non-whitespace characters (ASCII whitespace fragment). -/
def wsSplit (s : String) : List String :=
  (runsAux (fun c => !c.isWhitespace) [] s.data).map String.mk

/-- The search-index value built for one record (preindex_comments.py lines
45-59): `words` is the whitespace split of the lower-cased concatenation of
the text, a space and the author display name. -/
def mkSearchEntry (c : EngagementRecord) : SearchEntry :=
  { words := wsSplit (toLowerStr (c.text ++ " " ++ c.author_display_name)),
    text := c.text, author := c.author_display_name, video_id := c.video_id,
    like_count := c.like_count, published_at := c.published_at,
    published_at_timestamp := c.published_at_timestamp }

/-- Python dictionary assignment `d[k] = v`: replace the value in place if the
key exists, otherwise append the key. -/
def dictSet (m : List (String × SearchEntry)) (k : String) (v : SearchEntry) :
    List (String × SearchEntry) :=
  match m with
  | [] => [(k, v)]
  | (k', v') :: rest =>
    if k' = k then (k', v) :: rest else (k', v') :: dictSet rest k v

/-- Dictionary lookup in the search index. -/
def assocFind (m : List (String × SearchEntry)) (k : String) :
    Option SearchEntry :=
  match m with
  | [] => none
  | (k', v) :: rest => if k' = k then some v else assocFind rest k

/-- `create_search_index` (preindex_comments.py lines 40-61): one dictionary
entry per comment id, assigned in input order (so a repeated id keeps the
last record's data, at the key's original position). -/
def create_search_index (comments : List EngagementRecord) :
    List (String × SearchEntry) :=
  comments.foldl (fun m c => dictSet m c.comment_id (mkSearchEntry c)) []

end Preindex

/-! ### Deduplication lemmas -/

theorem dedupFirstAux_sublist [DecidableEq α] (seen l : List α) :
    (dedupFirstAux seen l).Sublist l := by
  induction l generalizing seen with
  | nil => simp [dedupFirstAux]
  | cons x xs ih =>
    simp only [dedupFirstAux]
    split
    · exact (ih seen).cons x
    · exact (ih (x :: seen)).cons₂ x

theorem mem_dedupFirstAux [DecidableEq α] {seen l : List α} {a : α} :
    a ∈ dedupFirstAux seen l ↔ a ∈ l ∧ a ∉ seen := by
  induction l generalizing seen with
  | nil => simp [dedupFirstAux]
  | cons x xs ih =>
    simp only [dedupFirstAux]
    split
    · rename_i hx
      rw [ih]
      simp only [List.mem_cons]
      constructor
      · exact fun h => ⟨Or.inr h.1, h.2⟩
      · rintro ⟨rfl | hxs, hns⟩
        · exact absurd hx hns
        · exact ⟨hxs, hns⟩
    · rename_i hx
      simp only [List.mem_cons, ih]
      constructor
      · rintro (rfl | ⟨hxs, hns⟩)
        · exact ⟨Or.inl rfl, hx⟩
        · exact ⟨Or.inr hxs, fun h => hns (Or.inr h)⟩
      · rintro ⟨rfl | hxs, hns⟩
        · exact Or.inl rfl
        · by_cases hax : a = x
          · exact Or.inl hax
          · exact Or.inr ⟨hxs, fun h => h.elim hax hns⟩

theorem dedupFirstAux_nodup [DecidableEq α] (seen l : List α) :
    (dedupFirstAux seen l).Nodup := by
  induction l generalizing seen with
  | nil => simp [dedupFirstAux]
  | cons x xs ih =>
    simp only [dedupFirstAux]
    split
    · exact ih seen
    · refine List.nodup_cons.mpr ⟨fun h => ?_, ih (x :: seen)⟩
      exact (mem_dedupFirstAux.mp h).2 (List.mem_cons_self x seen)

theorem dedupFirstAux_pairwise_indexOf [DecidableEq α] (l : List α) :
    ∀ seen, (dedupFirstAux seen l).Pairwise
      (fun a b => l.indexOf a < l.indexOf b) := by
  induction l with
  | nil => intro seen; simp [dedupFirstAux]
  | cons x xs ih =>
    intro seen
    simp only [dedupFirstAux]
    split
    · rename_i hx
      refine (ih seen).imp_of_mem ?_
      intro a b ha hb hal
      have hax : a ≠ x := fun h =>
        (mem_dedupFirstAux.mp ha).2 (h ▸ hx)
      have hbx : b ≠ x := fun h =>
        (mem_dedupFirstAux.mp hb).2 (h ▸ hx)
      rw [List.indexOf_cons_ne _ hax.symm, List.indexOf_cons_ne _ hbx.symm]
      exact Nat.succ_lt_succ hal
    · rename_i hx
      refine List.pairwise_cons.mpr ⟨?_, ?_⟩
      · intro b hb
        have hbx : b ≠ x := fun h =>
          (mem_dedupFirstAux.mp hb).2 (h ▸ List.mem_cons_self x seen)
        rw [List.indexOf_cons_self, List.indexOf_cons_ne _ hbx.symm]
        exact Nat.succ_pos _
      · refine (ih (x :: seen)).imp_of_mem ?_
        intro a b ha hb hal
        have hax : a ≠ x := fun h =>
          (mem_dedupFirstAux.mp ha).2 (h ▸ List.mem_cons_self x seen)
        have hbx : b ≠ x := fun h =>
          (mem_dedupFirstAux.mp hb).2 (h ▸ List.mem_cons_self x seen)
        rw [List.indexOf_cons_ne _ hax.symm, List.indexOf_cons_ne _ hbx.symm]
        exact Nat.succ_lt_succ hal

theorem dedupFirst_sublist [DecidableEq α] (l : List α) :
    (dedupFirst l).Sublist l := dedupFirstAux_sublist [] l

theorem mem_dedupFirst [DecidableEq α] {l : List α} {a : α} :
    a ∈ dedupFirst l ↔ a ∈ l := by
  rw [dedupFirst, mem_dedupFirstAux]
  simp

theorem dedupFirst_nodup [DecidableEq α] (l : List α) :
    (dedupFirst l).Nodup := dedupFirstAux_nodup [] l

theorem dedupFirst_toFinset [DecidableEq α] (l : List α) :
    (dedupFirst l).toFinset = l.toFinset := by
  ext a
  simp [List.mem_toFinset, mem_dedupFirst]

theorem dedupFirst_length_eq_card [DecidableEq α] (l : List α) :
    (dedupFirst l).length = l.toFinset.card := by
  rw [← dedupFirst_toFinset, List.toFinset_card_of_nodup (dedupFirst_nodup l)]

theorem dedupFirstAux_of_nodup [DecidableEq α] {l : List α} (h : l.Nodup) :
    ∀ {seen : List α}, (∀ a ∈ l, a ∉ seen) → dedupFirstAux seen l = l := by
  induction l with
  | nil => intro seen _; rfl
  | cons x xs ih =>
    intro seen hd
    have hx := List.nodup_cons.mp h
    simp only [dedupFirstAux]
    rw [if_neg (hd x (List.mem_cons_self x xs))]
    congr 1
    refine ih hx.2 ?_
    intro a ha hmem
    rcases List.mem_cons.mp hmem with rfl | hseen
    · exact hx.1 ha
    · exact hd a (List.mem_cons_of_mem x ha) hseen

theorem dedupFirst_of_nodup [DecidableEq α] {l : List α} (h : l.Nodup) :
    dedupFirst l = l :=
  dedupFirstAux_of_nodup h (fun _ _ => List.not_mem_nil _)

theorem dedupFirst_idempotent [DecidableEq α] (l : List α) :
    dedupFirst (dedupFirst l) = dedupFirst l :=
  dedupFirst_of_nodup (dedupFirst_nodup l)

/-! ### Chunking lemmas -/

theorem chunk_slices_flatten :
    ∀ (n : Nat) (l : List String), l.length ≤ n →
      ((Org.rangeStep l.length Org.chunkSize).map
          (fun i => (l.drop i).take Org.chunkSize)).flatten = l := by
  intro n
  induction n with
  | zero =>
    intro l hl
    have hnil : l = [] := List.eq_nil_of_length_eq_zero (Nat.le_zero.mp hl)
    subst hnil; rfl
  | succ n ih =>
    intro l hl
    by_cases hl0 : l = []
    · subst hl0; rfl
    · have h1 : 1 ≤ l.length := List.length_pos.mpr hl0
      have hsucc : (l.length + Org.chunkSize - 1) / Org.chunkSize =
          ((l.drop Org.chunkSize).length + Org.chunkSize - 1) / Org.chunkSize
            + 1 := by
        simp only [Org.chunkSize, List.length_drop]
        omega
      rw [Org.rangeStep, hsucc, List.range_succ_eq_map, List.map_cons,
        List.map_cons, List.map_map, List.map_map, List.flatten_cons]
      have hhead : (l.drop (0 * Org.chunkSize)).take Org.chunkSize =
          l.take Org.chunkSize := by
        norm_num
      have htail :
          (List.range ((((l.drop Org.chunkSize).length + Org.chunkSize - 1) /
                Org.chunkSize))).map
              (fun k => (l.drop (Nat.succ k * Org.chunkSize)).take
                Org.chunkSize) =
            (Org.rangeStep (l.drop Org.chunkSize).length Org.chunkSize).map
              (fun i => ((l.drop Org.chunkSize).drop i).take Org.chunkSize) := by
        rw [Org.rangeStep, List.map_map]
        refine List.map_congr_left ?_
        intro k _
        simp only [Function.comp_apply, List.drop_drop]
        congr 2
        simp only [Org.chunkSize]
        omega
      simp only [Function.comp_def]
      rw [hhead, htail, ih (l.drop Org.chunkSize) ?_, List.take_append_drop]
      simp only [Org.chunkSize, List.length_drop]
      omega

theorem chunkDataList_length (s : String) (l : List String) :
    (Org.chunkDataList s l).length =
      (l.length + Org.chunkSize - 1) / Org.chunkSize := by
  simp [Org.chunkDataList, Org.rangeStep]

theorem chunkDataList_map_ids (s : String) (l : List String) :
    (Org.chunkDataList s l).map (fun c => c.comment_ids) =
      (Org.rangeStep l.length Org.chunkSize).map
        (fun i => (l.drop i).take Org.chunkSize) := by
  simp only [Org.chunkDataList, List.map_map]
  rfl

theorem chunkDataList_flatten (s : String) (l : List String) :
    ((Org.chunkDataList s l).map (fun c => c.comment_ids)).flatten = l := by
  rw [chunkDataList_map_ids]
  exact chunk_slices_flatten l.length l le_rfl

theorem chunkDataList_map_idx (s : String) (l : List String) :
    (Org.chunkDataList s l).map (fun c => c.chunk_index) =
      List.range ((Org.chunkDataList s l).length) := by
  rw [chunkDataList_length]
  simp only [Org.chunkDataList, Org.rangeStep, List.map_map]
  refine (List.map_congr_left ?_).trans (List.map_id _)
  intro k _
  simp only [Function.comp_apply]
  exact Nat.mul_div_cancel k (by norm_num [Org.chunkSize])

theorem chunkDataList_mem_count (s : String) (l : List String) :
    ∀ c ∈ Org.chunkDataList s l,
      c.count = c.comment_ids.length ∧ c.count ≤ Org.chunkSize := by
  intro c hc
  simp only [Org.chunkDataList, List.mem_map] at hc
  obtain ⟨i, _, rfl⟩ := hc
  refine ⟨rfl, ?_⟩
  simp [List.length_take]

theorem chunkDataList_dropLast_count (s : String) (l : List String) :
    ∀ c ∈ (Org.chunkDataList s l).dropLast, c.count = Org.chunkSize := by
  intro c hc
  simp only [Org.chunkDataList, Org.rangeStep, List.map_map,
    ← List.map_dropLast] at hc
  rcases hn : (l.length + Org.chunkSize - 1) / Org.chunkSize with _ | m
  · rw [hn] at hc; simp at hc
  · rw [hn, List.range_succ, List.dropLast_concat] at hc
    simp only [List.mem_map] at hc
    obtain ⟨k, hk, rfl⟩ := hc
    simp only [Function.comp_apply, List.mem_range] at hk ⊢
    simp only [List.length_take, List.length_drop]
    have hbound : (k + 1) * Org.chunkSize ≤ l.length := by
      simp only [Org.chunkSize] at hn ⊢
      omega
    simp only [Org.chunkSize] at hbound ⊢
    omega

theorem chunkDataList_sum_counts (s : String) (l : List String) :
    ((Org.chunkDataList s l).map (fun c => c.count)).sum = l.length := by
  have hmap : (Org.chunkDataList s l).map (fun c => c.count) =
      ((Org.chunkDataList s l).map (fun c => c.comment_ids)).map
        List.length := by
    simp only [Org.chunkDataList, List.map_map]
    rfl
  rw [hmap, ← List.length_flatten, chunkDataList_flatten]

/-- Claim C2: for a post with at least one deduplicated comment id, chunking
produces exactly `⌈N / 1000⌉` chunks; the chunk indices are `0, 1, 2, ...` in
order; every chunk except possibly the last holds exactly 1000 ids and every
chunk's `count` equals the length of (and is bounded by the capacity of) its
id slice; concatenating the slices in index order restores the input list. -/
theorem C2_chunk_partition (s : String) (l : List String) (_h : 1 ≤ l.length) :
    (Org.chunkDataList s l).length =
      (l.length + Org.chunkSize - 1) / Org.chunkSize ∧
    (Org.chunkDataList s l).map (fun c => c.chunk_index) =
      List.range ((Org.chunkDataList s l).length) ∧
    (∀ c ∈ (Org.chunkDataList s l).dropLast, c.count = Org.chunkSize) ∧
    (∀ c ∈ Org.chunkDataList s l,
      c.count = c.comment_ids.length ∧ c.count ≤ Org.chunkSize) ∧
    ((Org.chunkDataList s l).map (fun c => c.comment_ids)).flatten = l :=
  ⟨chunkDataList_length s l, chunkDataList_map_idx s l,
   chunkDataList_dropLast_count s l, chunkDataList_mem_count s l,
   chunkDataList_flatten s l⟩

/-- Witness for C2 at the post `"p"` with ids `["a","b","c"]`. -/
theorem C2_chunk_partition_witness :
    ((Org.chunkDataList "p" ["a", "b", "c"]).map
        (fun c => c.comment_ids)).flatten = ["a", "b", "c"] ∧
    (Org.chunkDataList "p" ["a", "b", "c"]).length =
      (3 + Org.chunkSize - 1) / Org.chunkSize :=
  ⟨(C2_chunk_partition "p" ["a", "b", "c"] (by decide)).2.2.2.2,
   (C2_chunk_partition "p" ["a", "b", "c"] (by decide)).1⟩

/-! ### Index construction lemmas -/

theorem ccf_entry_sum (ps : List (String × List String)) :
    ∀ e ∈ (Org.create_chunked_files ps).1.posts,
      (e.chunks.map (fun c => c.count)).sum = e.total_comments := by
  intro e he
  simp only [Org.create_chunked_files, List.mem_map] at he
  obtain ⟨p, _, rfl⟩ := he
  simpa [List.map_map, Org.mkChunkDescr, Function.comp_def] using
    chunkDataList_sum_counts p.1 p.2

theorem ccf_stats_posts (ps : List (String × List String)) :
    (Org.create_chunked_files ps).1.stats.total_posts =
      (Org.create_chunked_files ps).1.posts.length := by
  simp [Org.create_chunked_files]

theorem ccf_stats_comments (ps : List (String × List String)) :
    (Org.create_chunked_files ps).1.stats.total_comments =
      ((Org.create_chunked_files ps).1.posts.map
        (fun e => e.total_comments)).sum := by
  simp [Org.create_chunked_files, List.map_map, Function.comp_def]

theorem ccf_stats_chunks (ps : List (String × List String)) :
    (Org.create_chunked_files ps).1.stats.total_chunks =
      ((Org.create_chunked_files ps).1.posts.map
        (fun e => e.chunk_count)).sum := by
  simp [Org.create_chunked_files, List.map_map, Function.comp_def]

theorem ccf_mem_entry (ps : List (String × List String)) :
    ∀ p ∈ ps, p.2 ≠ [] →
      ∃ e ∈ (Org.create_chunked_files ps).1.posts,
        e.shortcode = p.1 ∧ e.total_comments = p.2.length := by
  intro p hp hne
  refine ⟨{ shortcode := p.1, total_comments := p.2.length,
            chunks := (Org.chunkDataList p.1 p.2).map Org.mkChunkDescr,
            chunk_count := (Org.chunkDataList p.1 p.2).length }, ?_, rfl, rfl⟩
  simp only [Org.create_chunked_files, List.mem_map]
  refine ⟨p, ?_, rfl⟩
  simp only [List.mem_filter]
  exact ⟨hp, by simpa [List.isEmpty_iff] using hne⟩

/-- Claim C3: in the index built from the deduplicated lists, every post
entry's chunk counts sum to its `total_comments`, which is the length of that
post's deduplicated comment list; and the run stats record the number of
entries, the sum of the per-post totals, and the sum of the per-post chunk
counts. -/
theorem C3_index_invariants (posts : List (String × List String)) :
    (∀ e ∈ (Org.create_chunked_files
        (posts.map (fun p => (p.1, dedupFirst p.2)))).1.posts,
      (e.chunks.map (fun c => c.count)).sum = e.total_comments) ∧
    (∀ p ∈ posts, dedupFirst p.2 ≠ [] →
      ∃ e ∈ (Org.create_chunked_files
          (posts.map (fun p => (p.1, dedupFirst p.2)))).1.posts,
        e.shortcode = p.1 ∧ e.total_comments = (dedupFirst p.2).length) ∧
    (Org.create_chunked_files
        (posts.map (fun p => (p.1, dedupFirst p.2)))).1.stats.total_posts =
      (Org.create_chunked_files
        (posts.map (fun p => (p.1, dedupFirst p.2)))).1.posts.length ∧
    (Org.create_chunked_files
        (posts.map (fun p => (p.1, dedupFirst p.2)))).1.stats.total_comments =
      ((Org.create_chunked_files
        (posts.map (fun p => (p.1, dedupFirst p.2)))).1.posts.map
          (fun e => e.total_comments)).sum ∧
    (Org.create_chunked_files
        (posts.map (fun p => (p.1, dedupFirst p.2)))).1.stats.total_chunks =
      ((Org.create_chunked_files
        (posts.map (fun p => (p.1, dedupFirst p.2)))).1.posts.map
          (fun e => e.chunk_count)).sum := by
  refine ⟨ccf_entry_sum _, ?_, ccf_stats_posts _, ccf_stats_comments _,
    ccf_stats_chunks _⟩
  intro p hp hne
  exact ccf_mem_entry _ (p.1, dedupFirst p.2)
    (List.mem_map.mpr ⟨p, hp, rfl⟩) hne

/-- Claim C5: a post identifier all of whose deduplicated comment lists are
empty gets no chunk artifact and no index entry; conversely every index entry
has at least one comment and at least one chunk. -/
theorem C5_zero_comment_exclusion (posts : List (String × List String)) :
    (∀ s : String,
      (∀ p ∈ posts, p.1 = s → dedupFirst p.2 = []) →
      (∀ e ∈ (Org.create_chunked_files
          (posts.map (fun p => (p.1, dedupFirst p.2)))).1.posts,
        e.shortcode ≠ s) ∧
      (∀ a ∈ (Org.create_chunked_files
          (posts.map (fun p => (p.1, dedupFirst p.2)))).2,
        a.shortcode ≠ s)) ∧
    (∀ e ∈ (Org.create_chunked_files
        (posts.map (fun p => (p.1, dedupFirst p.2)))).1.posts,
      1 ≤ e.total_comments ∧ 1 ≤ e.chunk_count ∧ e.chunks ≠ []) := by
  constructor
  · intro s hs
    constructor
    · intro e he
      simp only [Org.create_chunked_files, List.mem_map, List.mem_filter] at he
      obtain ⟨p, ⟨hp, hne⟩, rfl⟩ := he
      obtain ⟨q, hq, rfl⟩ := hp
      intro hsc
      have := hs q hq hsc
      simp [this] at hne
    · intro a ha
      simp only [Org.create_chunked_files, List.mem_flatten, List.mem_map,
        List.mem_filter] at ha
      obtain ⟨cl, ⟨p, ⟨hp, hne⟩, rfl⟩, hmem⟩ := ha
      obtain ⟨q, hq, rfl⟩ := hp
      simp only [Org.chunkDataList, List.mem_map] at hmem
      obtain ⟨i, _, rfl⟩ := hmem
      intro hsc
      have := hs q hq hsc
      simp [this] at hne
  · intro e he
    simp only [Org.create_chunked_files, List.mem_map, List.mem_filter] at he
    obtain ⟨p, ⟨_, hne⟩, rfl⟩ := he
    have hlen : 1 ≤ p.2.length := by
      cases hl : p.2 with
      | nil => rw [hl] at hne; simp at hne
      | cons a t => simp [hl]
    refine ⟨hlen, ?_, ?_⟩
    · rw [chunkDataList_length]
      simp only [Org.chunkSize]
      omega
    · intro hch
      have := congrArg List.length hch
      rw [List.length_map, chunkDataList_length] at this
      simp only [Org.chunkSize, List.length_nil] at this
      omega

/-! ### Stable descending sort lemmas -/

theorem mem_insertDescBy [LinearOrder β] (key : α → β) (x a : α)
    (l : List α) : a ∈ insertDescBy key x l ↔ a = x ∨ a ∈ l := by
  induction l with
  | nil => simp [insertDescBy]
  | cons y ys ih =>
    simp only [insertDescBy]
    split
    · simp [List.mem_cons]
    · simp only [List.mem_cons, ih]
      tauto

theorem insertDescBy_pairwise [LinearOrder β] (key : α → β) (x : α)
    (l : List α) (h : l.Pairwise (fun a b => key b ≤ key a)) :
    (insertDescBy key x l).Pairwise (fun a b => key b ≤ key a) := by
  induction l with
  | nil => simp [insertDescBy]
  | cons y ys ih =>
    rcases List.pairwise_cons.mp h with ⟨hy, hys⟩
    simp only [insertDescBy]
    split
    · rename_i hlt
      refine List.pairwise_cons.mpr ⟨?_, h⟩
      intro b hb
      rcases List.mem_cons.mp hb with rfl | hbys
      · exact le_of_lt hlt
      · exact le_trans (hy b hbys) (le_of_lt hlt)
    · rename_i hnlt
      refine List.pairwise_cons.mpr ⟨?_, ih hys⟩
      intro b hb
      rcases (mem_insertDescBy key x b ys).mp hb with rfl | hbys
      · exact le_of_not_lt hnlt
      · exact hy b hbys

theorem insertDescBy_filter [LinearOrder β] [DecidableEq β] (key : α → β)
    (x : α) (l : List α) (n : β)
    (h : l.Pairwise (fun a b => key b ≤ key a)) :
    (insertDescBy key x l).filter (fun e => key e == n) =
      if key x == n then l.filter (fun e => key e == n) ++ [x]
      else l.filter (fun e => key e == n) := by
  induction l with
  | nil =>
    by_cases hx : key x = n <;> simp [insertDescBy, List.filter_cons, hx]
  | cons y ys ih =>
    rcases List.pairwise_cons.mp h with ⟨hy, hys⟩
    simp only [insertDescBy]
    split
    · rename_i hlt
      by_cases hx : key x = n
      · have hF : (y :: ys).filter (fun e => key e == n) = [] := by
          rw [List.filter_eq_nil_iff]
          intro a ha
          rcases List.mem_cons.mp ha with rfl | hays
          · simp only [beq_iff_eq]
            exact fun hcon => absurd (hcon ▸ (hx ▸ hlt)) (lt_irrefl _)
          · simp only [beq_iff_eq]
            intro hcon
            have : key a < key x := lt_of_le_of_lt (hy a hays) hlt
            exact absurd (hcon.trans hx.symm) (ne_of_lt this)
        simp [List.filter_cons, hx, hF]
      · simp [List.filter_cons, hx]
    · rename_i hnlt
      by_cases hyn : key y = n <;> by_cases hx : key x = n <;>
        simp [List.filter_cons, hyn, hx, ih hys]

theorem sortDescBy_foldl_invariant [LinearOrder β] [DecidableEq β]
    (key : α → β) (l : List α) :
    ∀ (acc : List α), acc.Pairwise (fun a b => key b ≤ key a) →
      (l.foldl (fun acc x => insertDescBy key x acc) acc).Pairwise
          (fun a b => key b ≤ key a) ∧
      ∀ n, (l.foldl (fun acc x => insertDescBy key x acc) acc).filter
            (fun e => key e == n) =
          acc.filter (fun e => key e == n) ++
            l.filter (fun e => key e == n) := by
  induction l with
  | nil => intro acc hacc; exact ⟨hacc, fun n => by simp⟩
  | cons x xs ih =>
    intro acc hacc
    have hins := insertDescBy_pairwise key x acc hacc
    obtain ⟨hsorted, hfilter⟩ := ih (insertDescBy key x acc) hins
    refine ⟨hsorted, fun n => ?_⟩
    rw [List.foldl_cons, hfilter n, insertDescBy_filter key x acc n hacc,
      List.filter_cons]
    by_cases hx : key x = n <;> simp [hx]

theorem sortDescBy_sorted [LinearOrder β] [DecidableEq β] (key : α → β)
    (l : List α) :
    (sortDescBy key l).Pairwise (fun a b => key b ≤ key a) :=
  (sortDescBy_foldl_invariant key l [] (List.Pairwise.nil)).1

theorem sortDescBy_filter [LinearOrder β] [DecidableEq β] (key : α → β)
    (l : List α) (n : β) :
    (sortDescBy key l).filter (fun e => key e == n) =
      l.filter (fun e => key e == n) := by
  have := (sortDescBy_foldl_invariant key l [] (List.Pairwise.nil)).2 n
  simpa [sortDescBy] using this

theorem mem_sortDescBy [LinearOrder β] (key : α → β) (l : List α) (a : α) :
    a ∈ sortDescBy key l ↔ a ∈ l := by
  rw [sortDescBy]
  suffices h : ∀ acc, a ∈ l.foldl (fun acc x => insertDescBy key x acc) acc ↔
      a ∈ acc ∨ a ∈ l by
    simpa using h []
  induction l with
  | nil => intro acc; simp
  | cons x xs ih =>
    intro acc
    rw [List.foldl_cons, ih, mem_insertDescBy]
    simp only [List.mem_cons]
    tauto

/-- Demonstration input for the summary ordering: four posts whose comment
counts are 5, 20, 5 and 1 in iteration order. -/
def summaryDemoPosts : List (String × List String) :=
  [("p1", (List.range 5).map toString),
   ("p2", (List.range 20).map toString),
   ("p3", (List.range 5).map toString),
   ("p4", (List.range 1).map toString)]

/-- Claim C6: the emitted summary lists posts by descending comment count and
is stable — filtering the summary to any fixed count returns those posts in
their original index-iteration order; in particular counts `[5, 20, 5, 1]`
come out as `[20, 5, 5, 1]` with the two 5-count posts in original relative
order. -/
theorem C6_summary_sorted (idx : Org.IndexData) :
    ((Org.create_index_files idx).posts).Pairwise
      (fun a b => b.comment_count ≤ a.comment_count) ∧
    (∀ n : Nat, ((Org.create_index_files idx).posts).filter
        (fun e => e.comment_count == n) =
      (idx.posts.map Org.toSummaryEntry).filter
        (fun e => e.comment_count == n)) ∧
    (Org.create_index_files
        (Org.create_chunked_files summaryDemoPosts).1).posts.map
      (fun e => (e.shortcode, e.comment_count)) =
      [("p2", 20), ("p1", 5), ("p3", 5), ("p4", 1)] := by
  refine ⟨sortDescBy_sorted _ _, fun n => sortDescBy_filter _ _ n, ?_⟩
  decide

/-! ### Aggregation lemmas -/

theorem JArray.toList_ofList (l : List JValue) :
    (JArray.ofList l).toList = l := by
  induction l with
  | nil => rfl
  | cons h t ih => simp [JArray.ofList, JArray.toList, ih]

/-- A decoded input file holding a single entry that references `post` with
one log whose `storedIds` are `ids`. -/
def commentFile (uuid post : String) (ids : List String) :
    List (String × JValue) :=
  [(uuid, jObj [("target", .str post),
                ("logs", jArr [jObj [("storedIds", jArr (ids.map .str))]])])]

theorem parse_two_commentFiles (post u1 u2 : String)
    (ids1 ids2 : List String) (h : post ≠ "") :
    Org.parse_json_files
        [commentFile u1 post ids1, commentFile u2 post ids2] =
      [(.str post, (ids1 ++ ids2).map JValue.str)] := by
  simp [Org.parse_json_files, commentFile, Org.orgFile, Org.orgEntry, jObj,
    jArr, JObject.ofList, JObject.getD, jTruthy, h, iterElems, jHashable,
    Org.logStoredIds, JArray.toList_ofList, Org.orgExtend, JArray.toList]

theorem dedupFirstAux_map [DecidableEq α] [DecidableEq β] {f : α → β}
    (hf : Function.Injective f) (l : List α) :
    ∀ seen : List α,
      dedupFirstAux (seen.map f) (l.map f) = (dedupFirstAux seen l).map f := by
  induction l with
  | nil => intro seen; rfl
  | cons x xs ih =>
    intro seen
    simp only [List.map_cons, dedupFirstAux,
      List.mem_map_of_injective hf]
    split
    · exact ih seen
    · rw [← List.map_cons, ih (x :: seen)]
      rfl

theorem dedupFirst_map [DecidableEq α] [DecidableEq β] {f : α → β}
    (hf : Function.Injective f) (l : List α) :
    dedupFirst (l.map f) = (dedupFirst l).map f :=
  dedupFirstAux_map hf l []

theorem jvalue_str_injective : Function.Injective JValue.str := by
  intro a b h
  cases h
  rfl

/-- Claim C4: aggregation accumulates ids for the same post across files —
two files referencing `post` with disjoint id sets of sizes 3 and 4 aggregate
to the 7-element concatenation, and when the two sets overlap in exactly 2
ids the deduplicated list for the post has 5 elements. -/
theorem C4_cross_file_aggregation (post u1 u2 : String)
    (ids1 ids2 jds1 jds2 : List String)
    (hpost : post ≠ "")
    (_hdisj : ∀ a ∈ ids1, a ∉ ids2)
    (h3 : ids1.length = 3) (h4 : ids2.length = 4)
    (hn1 : jds1.Nodup) (hn2 : jds2.Nodup)
    (hj3 : jds1.length = 3) (hj4 : jds2.length = 4)
    (hint : (jds1 ∩ jds2).length = 2) :
    Org.lookupOrg (Org.parse_json_files
        [commentFile u1 post ids1, commentFile u2 post ids2])
        (.str post) = some ((ids1 ++ ids2).map JValue.str) ∧
    ((ids1 ++ ids2).map JValue.str).length = 7 ∧
    Org.lookupOrg (Org.deduplicate_comments (Org.parse_json_files
        [commentFile u1 post jds1, commentFile u2 post jds2]))
        (.str post) = some (dedupFirst ((jds1 ++ jds2).map JValue.str)) ∧
    (dedupFirst ((jds1 ++ jds2).map JValue.str)).length = 5 := by
  refine ⟨?_, ?_, ?_, ?_⟩
  · rw [parse_two_commentFiles post u1 u2 ids1 ids2 hpost]
    simp [Org.lookupOrg]
  · simp [h3, h4]
  · rw [parse_two_commentFiles post u1 u2 jds1 jds2 hpost]
    simp [Org.deduplicate_comments, Org.lookupOrg]
  · rw [dedupFirst_map jvalue_str_injective, List.length_map,
      dedupFirst_length_eq_card, List.toFinset_append]
    have hc1 : jds1.toFinset.card = 3 := by
      rw [List.toFinset_card_of_nodup hn1]; exact hj3
    have hc2 : jds2.toFinset.card = 4 := by
      rw [List.toFinset_card_of_nodup hn2]; exact hj4
    have hci : (jds1.toFinset ∩ jds2.toFinset).card = 2 := by
      rw [← List.toFinset_inter,
        List.toFinset_card_of_nodup (hn1.inter jds2)]
      exact hint
    have := Finset.card_union_add_card_inter jds1.toFinset jds2.toFinset
    omega

/-- Witness for C4: post `"ABC123"` across two files, with the disjoint sets
`{a,b,c}` / `{d,e,f,g}` and the overlapping sets `{a,b,c}` / `{b,c,d,e}`. -/
theorem C4_cross_file_aggregation_witness :
    Org.lookupOrg (Org.parse_json_files
        [commentFile "u1" "ABC123" ["a", "b", "c"],
         commentFile "u2" "ABC123" ["d", "e", "f", "g"]])
        (.str "ABC123") =
      some ((["a", "b", "c"] ++ ["d", "e", "f", "g"]).map JValue.str) ∧
    (dedupFirst ((["a", "b", "c"] ++ ["b", "c", "d", "e"]).map
        JValue.str)).length = 5 := by
  have h := C4_cross_file_aggregation "ABC123" "u1" "u2"
    ["a", "b", "c"] ["d", "e", "f", "g"] ["a", "b", "c"] ["b", "c", "d", "e"]
    (by decide) (by decide) rfl rfl (by decide) (by decide) rfl rfl (by decide)
  exact ⟨h.1, h.2.2.2⟩

/-! ### Deduplication is in place (frame behaviour) -/

/-- An aggregated mapping holding a duplicate comment id. -/
def dupDemoMap : Org.OrgMap := [(.str "p", [.str "a", .str "a"])]

/-- Claim C9 counterexample: `deduplicate_comments` rewrites the mapping it is
given and returns that same mapping; at the concrete input
`{"p": ["a", "a"]}` the post-call contents (equal to the returned mapping in
this state-passing embedding) differ from the original contents, so the input
mapping is not left unchanged and nothing distinct from it is created. -/
theorem C9_dedup_not_pure_cex :
    Org.deduplicate_comments dupDemoMap ≠ dupDemoMap ∧
    Org.deduplicate_comments dupDemoMap = [(.str "p", [.str "a"])] := by
  decide

/-- Claim C9 amended: deduplication updates the aggregated mapping in place
and returns it — keys and their order are preserved, each stored list is
replaced by its first-occurrence deduplication (so the pre-call sequences are
lost whenever they held duplicates), and running it again changes nothing. -/
theorem C9_dedup_in_place (m : Org.OrgMap) :
    (Org.deduplicate_comments m).map Prod.fst = m.map Prod.fst ∧
    (∀ p ∈ m, (p.1, dedupFirst p.2) ∈ Org.deduplicate_comments m) ∧
    (∀ q ∈ Org.deduplicate_comments m, q.2.Nodup) ∧
    Org.deduplicate_comments (Org.deduplicate_comments m) =
      Org.deduplicate_comments m := by
  refine ⟨?_, ?_, ?_, ?_⟩
  · simp [Org.deduplicate_comments]
  · intro p hp
    exact List.mem_map.mpr ⟨p, hp, rfl⟩
  · intro q hq
    obtain ⟨p, _, rfl⟩ := List.mem_map.mp hq
    exact dedupFirst_nodup _
  · rw [Org.deduplicate_comments, Org.deduplicate_comments, List.map_map]
    refine List.map_congr_left ?_
    intro p _
    simp [Function.comp_apply, dedupFirst_idempotent]

/-- Claim C1: per-post deduplication removes exact duplicates and keeps the
surviving elements in first-appearance order — on `["a","b","a","c","b"]` it
returns `["a","b","c"]`; in general the result is never longer than the
input, has no duplicates, has exactly the input's elements, is a subsequence
of the input, and lists its elements in strictly increasing order of first
appearance (`List.indexOf` is the index of the first occurrence). -/
theorem C1_dedup_first_occurrence :
    dedupFirst ["a", "b", "a", "c", "b"] = ["a", "b", "c"] ∧
    (∀ (l : List String), (dedupFirst l).length ≤ l.length) ∧
    (∀ (l : List String), (dedupFirst l).Nodup) ∧
    (∀ (l : List String) (x : String), x ∈ dedupFirst l ↔ x ∈ l) ∧
    (∀ (l : List String), (dedupFirst l).Sublist l) ∧
    (∀ (l : List String),
      (dedupFirst l).Pairwise (fun a b => l.indexOf a < l.indexOf b)) :=
  ⟨by decide, fun l => (dedupFirst_sublist l).length_le,
   fun l => dedupFirst_nodup l, fun _ _ => mem_dedupFirst,
   fun l => dedupFirst_sublist l, fun l => dedupFirstAux_pairwise_indexOf l []⟩

/-! ### Liked-words profile (preindex pipeline) -/

/-- A single comment with a positive like count whose text holds the token
`word` twice. -/
def likedCexComment : Preindex.EngagementRecord :=
  { video_id := "v", comment_id := "c1", text := "word word",
    author_display_name := "a", like_count := 5, published_at := "",
    published_at_timestamp := 0 }

/-- Claim C7 counterexample: with one liked comment whose text contains
`word` twice, the code ranks `word` — it collects one like-count sample per
occurrence, so a word appearing in exactly one liked comment is not excluded,
contradicting the claim's two-distinct-comments threshold. -/
theorem C7_liked_words_cex :
    (([likedCexComment].filter (fun c => 0 < c.like_count)).countP
        (fun c => decide ("word" ∈ Preindex.tokenize c.text))) = 1 ∧
    Preindex.liked_words_profile [likedCexComment] =
      [{ word := "word", avgLikes := 5, count := 2 }] := by
  decide

/-- Ten comments with positive like counts; the two largest (likes 20 and 10)
both contain `word` once, the filler comments do not. -/
def avgDemoComments : List Preindex.EngagementRecord :=
  [{ video_id := "v", comment_id := "w20", text := "word",
     author_display_name := "", like_count := 20, published_at := "",
     published_at_timestamp := 0 },
   { video_id := "v", comment_id := "w10", text := "word",
     author_display_name := "", like_count := 10, published_at := "",
     published_at_timestamp := 0 }] ++
  (List.range 8).map (fun i =>
    { video_id := "v", comment_id := toString i, text := "filler",
      author_display_name := "", like_count := 1, published_at := "",
      published_at_timestamp := 0 })

/-- Six comments with positive like counts 60, 50, 40, 30, 20, 10; the top
one holds `aaa` twice, the rest hold `bbb` twice. -/
def floorDemoComments : List Preindex.EngagementRecord :=
  { video_id := "v", comment_id := "top", text := "aaa aaa",
    author_display_name := "", like_count := 60, published_at := "",
    published_at_timestamp := 0 } ::
  (List.range 5).map (fun i =>
    { video_id := "v", comment_id := toString i, text := "bbb bbb",
      author_display_name := "", like_count := 50 - 10 * Int.ofNat i,
      published_at := "", published_at_timestamp := 0 })

/-- Claim C7 amended: the liked subset is the comments with positive like
count sorted descending by like count, truncated to the top
`max(1, ⌊N / 5⌋)` (integer division, not a ceiling); every occurrence of a
non-stop-word token of a liked-subset comment contributes one like-count
sample (per occurrence, not per distinct comment); a word is ranked when it
has at least 2 samples, scored by the rounded mean of its samples, descending,
top 15 kept; if no comment has a positive like count the profile is empty.
Concretely: `word` sampled once each from two liked comments with likes 10
and 20 scores 15; with six liked comments only the top one (⌊6/5⌋ = 1) is in
the subset. -/
theorem C7_liked_words_profile (cs : List Preindex.EngagementRecord) :
    ((∀ c ∈ cs, c.like_count ≤ 0) → Preindex.liked_words_profile cs = []) ∧
    (Preindex.liked_words_profile cs).length ≤ 15 ∧
    (∀ w ∈ Preindex.liked_words_profile cs, 2 ≤ w.count) ∧
    Preindex.liked_words_profile avgDemoComments =
      [{ word := "word", avgLikes := 15, count := 2 }] ∧
    Preindex.liked_words_profile floorDemoComments =
      [{ word := "aaa", avgLikes := 60, count := 2 }] := by
  refine ⟨?_, ?_, ?_, by decide, by decide⟩
  · intro h
    have hfil : cs.filter (fun c => decide (0 < c.like_count)) = [] := by
      rw [List.filter_eq_nil_iff]
      intro c hc
      simpa using not_lt.mpr (h c hc)
    simp [Preindex.liked_words_profile, hfil, sortDescBy]
  · simp only [Preindex.liked_words_profile]
    split
    · simp
    · exact List.length_take_le 15 _
  · intro w hw
    simp only [Preindex.liked_words_profile] at hw
    split at hw
    · simp at hw
    · have hw' := List.mem_of_mem_take hw
      rw [mem_sortDescBy] at hw'
      simp only [List.mem_map, List.mem_filter] at hw'
      obtain ⟨p, ⟨_, hp2⟩, rfl⟩ := hw'
      simpa using hp2

/-! ### Malformed-entry handling in analyze_json_file -/

/-- A well-formed entry: a dict with a `target` string and a `logs` list of
one log carrying `storedIds`. -/
def goodEntryJ (t : String) (ids : List String) : JValue :=
  jObj [("target", .str t),
        ("logs", jArr [jObj [("storedIds", jArr (ids.map .str))]])]

/-- A malformed entry whose `logs` field is a string instead of a list. -/
def badLogsEntry (t s : String) : JValue :=
  jObj [("target", .str t), ("logs", .str s)]

theorem setUpdate_all_hashable (ids : List JValue)
    (h : ∀ x ∈ ids, jHashable x = true) :
    ∀ s : List JValue, (Analyze.setUpdate s ids).2 = true := by
  induction ids with
  | nil => intro s; rfl
  | cons x xs ih =>
    intro s
    simp only [Analyze.setUpdate, h x (List.mem_cons_self x xs), if_pos]
    exact ih (fun y hy => h y (List.mem_cons_of_mem x hy)) _

theorem dictSetUpdate_all_hashable (ids : List JValue)
    (h : ∀ x ∈ ids, jHashable x = true) (k : JValue) :
    ∀ m, (Analyze.dictSetUpdate m k ids).2 = true := by
  intro m
  induction m with
  | nil => simp [Analyze.dictSetUpdate, setUpdate_all_hashable ids h]
  | cons p rest ih =>
    simp only [Analyze.dictSetUpdate]
    split
    · exact setUpdate_all_hashable ids h _
    · exact ih

/-- Processing an entry whose `logs` field is a string: the entry counts
toward `total_entries` and changes nothing else — in particular it is not
counted as an error (`isinstance(logs, list)` simply fails, no exception is
raised). -/
theorem analyze_entry_badLogs (st : Analyze.AnalyzeState) (t s : String) :
    Analyze.analyze_entry st (badLogsEntry t s) =
      { st with total_entries := st.total_entries + 1 } := by
  simp only [Analyze.analyze_entry, badLogsEntry, jObj, JObject.ofList,
    JObject.getD]
  cases hb : jTruthy (JValue.str t) <;> simp [hb]

theorem aLogStep_storedIds (st : Analyze.AnalyzeState) (t : String)
    (l : List JValue) (hl : ∀ x ∈ l, jHashable x = true) :
    Analyze.aLogStep st (.str t)
        (JValue.obj (JObject.cons "storedIds"
          (JValue.arr (JArray.ofList l)) JObject.nil)) =
      ({ st with
          shortcode_to_comments :=
            (Analyze.dictSetUpdate st.shortcode_to_comments (.str t) l).1,
          all_comment_ids := st.all_comment_ids ++ l }, true) := by
  have hflag := dictSetUpdate_all_hashable l hl
    (JValue.str t) st.shortcode_to_comments
  simp [Analyze.aLogStep, Org.logStoredIds, JObject.getD,
    JArray.toList_ofList, jHashable, hflag]

/-- Processing a well-formed entry from an arbitrary starting state. -/
theorem analyze_entry_goodEntry (st : Analyze.AnalyzeState) (t : String)
    (ids : List String) (ht : t ≠ "") :
    Analyze.analyze_entry st (goodEntryJ t ids) =
      { st with
        total_entries := st.total_entries + 1,
        shortcode_to_comments :=
          (Analyze.dictSetUpdate st.shortcode_to_comments (.str t)
            (ids.map .str)).1,
        all_comment_ids := st.all_comment_ids ++ ids.map .str } := by
  have hhash : ∀ x ∈ ids.map JValue.str, jHashable x = true := by
    intro x hx
    obtain ⟨a, _, rfl⟩ := List.mem_map.mp hx
    rfl
  have hlogs : ∀ st' : Analyze.AnalyzeState,
      Analyze.aLogs st' (.str t)
          [JValue.obj (JObject.cons "storedIds"
            (JValue.arr (JArray.ofList (ids.map JValue.str))) JObject.nil)] =
        ({ st' with
            shortcode_to_comments :=
              (Analyze.dictSetUpdate st'.shortcode_to_comments (.str t)
                (ids.map .str)).1,
            all_comment_ids := st'.all_comment_ids ++ ids.map .str }, true) := by
    intro st'
    simp only [Analyze.aLogs,
      aLogStep_storedIds st' t (ids.map JValue.str) hhash, if_true]
  simp [goodEntryJ, jObj, jArr, JObject.ofList, JArray.ofList,
    Analyze.analyze_entry, JObject.getD, jTruthy, ht, JArray.toList,
    hlogs]

/-- Claim C8 counterexample: a file holding one well-formed entry and one
entry whose `logs` is a string is processed without raising, but
`total_entries` is 2 (both entries are counted as processed) and
`error_entries` is 0 — not one processed entry and one error as claimed. -/
theorem C8_error_count_cex :
    (Analyze.analyze_json_file
        [("k1", goodEntryJ "ABC" ["c1", "c2"]),
         ("k2", badLogsEntry "XYZ" "oops")]).total_entries = 2 ∧
    (Analyze.analyze_json_file
        [("k1", goodEntryJ "ABC" ["c1", "c2"]),
         ("k2", badLogsEntry "XYZ" "oops")]).error_entries = 0 := by
  decide

/-- Claim C8 amended: such a file is processed without raising; both entries
count toward `total_entries` (2) and no error is counted (the string-`logs`
entry is skipped silently); the malformed entry contributes no comment
identifiers — the collected sets and id list equal those of processing the
well-formed entry alone, in either file order, so it aborts nothing. -/
theorem C8_malformed_logs_resilience (k1 k2 t1 t2 s : String)
    (ids : List String) (ht : t1 ≠ "") :
    (Analyze.analyze_json_file
        [(k1, goodEntryJ t1 ids), (k2, badLogsEntry t2 s)]).total_entries
      = 2 ∧
    (Analyze.analyze_json_file
        [(k1, goodEntryJ t1 ids), (k2, badLogsEntry t2 s)]).error_entries
      = 0 ∧
    (Analyze.analyze_json_file
        [(k1, goodEntryJ t1 ids), (k2, badLogsEntry t2 s)]).shortcode_to_comments
      = (Analyze.analyze_json_file
          [(k1, goodEntryJ t1 ids)]).shortcode_to_comments ∧
    (Analyze.analyze_json_file
        [(k1, goodEntryJ t1 ids), (k2, badLogsEntry t2 s)]).all_comment_ids
      = (Analyze.analyze_json_file
          [(k1, goodEntryJ t1 ids)]).all_comment_ids ∧
    (Analyze.analyze_json_file
        [(k2, badLogsEntry t2 s), (k1, goodEntryJ t1 ids)]).shortcode_to_comments
      = (Analyze.analyze_json_file
          [(k1, goodEntryJ t1 ids)]).shortcode_to_comments ∧
    (Analyze.analyze_json_file
        [(k2, badLogsEntry t2 s), (k1, goodEntryJ t1 ids)]).all_comment_ids
      = (Analyze.analyze_json_file
          [(k1, goodEntryJ t1 ids)]).all_comment_ids ∧
    (Analyze.analyze_json_file
        [(k2, badLogsEntry t2 s), (k1, goodEntryJ t1 ids)]).total_entries
      = 2 ∧
    (Analyze.analyze_json_file
        [(k2, badLogsEntry t2 s), (k1, goodEntryJ t1 ids)]).error_entries
      = 0 := by
  simp [Analyze.analyze_json_file, analyze_entry_badLogs,
    analyze_entry_goodEntry _ t1 ids ht, Analyze.initState]

/-- Witness for C8 at the concrete file `{good "ABC", bad "XYZ"}`. -/
theorem C8_malformed_logs_resilience_witness :
    (Analyze.analyze_json_file
        [("k2", badLogsEntry "XYZ" "oops"),
         ("k1", goodEntryJ "ABC" ["c1", "c2"])]).shortcode_to_comments
      = (Analyze.analyze_json_file
          [("k1", goodEntryJ "ABC" ["c1", "c2"])]).shortcode_to_comments ∧
    (Analyze.analyze_json_file
        [("k2", badLogsEntry "XYZ" "oops"),
         ("k1", goodEntryJ "ABC" ["c1", "c2"])]).error_entries = 0 := by
  have h := C8_malformed_logs_resilience "k1" "k2" "ABC" "XYZ" "oops"
    ["c1", "c2"] (by decide)
  exact ⟨h.2.2.2.2.1, h.2.2.2.2.2.2.2⟩

/-! ### Search index lemmas -/

theorem assocFind_dictSet (m : List (String × Preindex.SearchEntry))
    (k : String) (v : Preindex.SearchEntry) (q : String) :
    Preindex.assocFind (Preindex.dictSet m k v) q =
      if q = k then some v else Preindex.assocFind m q := by
  induction m with
  | nil =>
    by_cases hq : q = k
    · subst hq; simp [Preindex.dictSet, Preindex.assocFind]
    · have hk : ¬ k = q := fun h => hq h.symm
      simp [Preindex.dictSet, Preindex.assocFind, hq, hk]
  | cons p rest ih =>
    obtain ⟨a, b⟩ := p
    by_cases hak : a = k
    · subst hak
      by_cases hq : q = a
      · subst hq; simp [Preindex.dictSet, Preindex.assocFind]
      · have ha : ¬ a = q := fun h => hq h.symm
        simp [Preindex.dictSet, Preindex.assocFind, hq, ha]
    · by_cases haq : a = q
      · subst haq
        simp [Preindex.dictSet, Preindex.assocFind, hak]
      · simp [Preindex.dictSet, Preindex.assocFind, hak, haq, ih]

theorem keys_dictSet (m : List (String × Preindex.SearchEntry)) (k : String)
    (v : Preindex.SearchEntry) (q : String) :
    q ∈ (Preindex.dictSet m k v).map Prod.fst ↔
      q = k ∨ q ∈ m.map Prod.fst := by
  induction m with
  | nil => simp [Preindex.dictSet]
  | cons p rest ih =>
    obtain ⟨a, b⟩ := p
    simp only [Preindex.dictSet]
    split
    · rename_i hak
      subst hak
      simp only [List.map_cons, List.mem_cons]
      tauto
    · simp only [List.map_cons, List.mem_cons, ih]
      tauto

theorem keys_dictSet_nodup (m : List (String × Preindex.SearchEntry))
    (k : String) (v : Preindex.SearchEntry)
    (h : (m.map Prod.fst).Nodup) :
    ((Preindex.dictSet m k v).map Prod.fst).Nodup := by
  induction m with
  | nil => simp [Preindex.dictSet]
  | cons p rest ih =>
    obtain ⟨a, b⟩ := p
    simp only [List.map_cons, List.nodup_cons] at h
    simp only [Preindex.dictSet]
    split
    · rename_i hak
      subst hak
      simp only [List.map_cons, List.nodup_cons]
      exact h
    · rename_i hak
      simp only [List.map_cons, List.nodup_cons]
      refine ⟨fun hmem => ?_, ih h.2⟩
      rcases (keys_dictSet rest k v a).mp hmem with rfl | hin
      · exact hak rfl
      · exact h.1 hin

theorem csi_foldl_find (comments : List Preindex.EngagementRecord)
    (q : String) :
    ∀ m : List (String × Preindex.SearchEntry),
      Preindex.assocFind
          (comments.foldl
            (fun m c => Preindex.dictSet m c.comment_id
              (Preindex.mkSearchEntry c)) m) q =
        ((comments.reverse.find? (fun c => c.comment_id == q)).map
            Preindex.mkSearchEntry).or (Preindex.assocFind m q) := by
  induction comments with
  | nil => intro m; simp
  | cons c rest ih =>
    intro m
    rw [List.foldl_cons, ih, List.reverse_cons, List.find?_append,
      assocFind_dictSet]
    cases hfind : rest.reverse.find? (fun c => c.comment_id == q) with
    | some val => simp
    | none =>
      by_cases hq : c.comment_id = q
      · subst hq; simp
      · have hbeq : (c.comment_id == q) = false := by simpa using hq
        have hqk : ¬ q = c.comment_id := fun h => hq h.symm
        simp [hbeq, hqk]

theorem csi_foldl_keys (comments : List Preindex.EngagementRecord)
    (q : String) :
    ∀ m : List (String × Preindex.SearchEntry),
      q ∈ (comments.foldl
            (fun m c => Preindex.dictSet m c.comment_id
              (Preindex.mkSearchEntry c)) m).map Prod.fst ↔
        q ∈ m.map Prod.fst ∨ q ∈ comments.map (fun c => c.comment_id) := by
  induction comments with
  | nil => intro m; simp
  | cons c rest ih =>
    intro m
    rw [List.foldl_cons, ih, keys_dictSet]
    simp only [List.map_cons, List.mem_cons]
    tauto

theorem csi_foldl_nodup (comments : List Preindex.EngagementRecord) :
    ∀ m : List (String × Preindex.SearchEntry),
      (m.map Prod.fst).Nodup →
      ((comments.foldl
          (fun m c => Preindex.dictSet m c.comment_id
            (Preindex.mkSearchEntry c)) m).map Prod.fst).Nodup := by
  induction comments with
  | nil => intro m hm; exact hm
  | cons c rest ih =>
    intro m hm
    rw [List.foldl_cons]
    exact ih _ (keys_dictSet_nodup m c.comment_id _ hm)

/-- A record whose searchable text exercises lowering and whitespace runs. -/
def searchDemoRecord : Preindex.EngagementRecord :=
  { video_id := "v", comment_id := "c", text := "Hello  World",
    author_display_name := "JohnDoe", like_count := 0, published_at := "",
    published_at_timestamp := 0 }

/-- Claim C10: the search index has exactly one entry per distinct comment id
of the input; a repeated id keeps the data of the last record in input order;
the stored `words` are the whitespace split of the lower-cased concatenation
of text, a space, and author display name. -/
theorem C10_search_index_last_wins
    (comments : List Preindex.EngagementRecord) :
    ((Preindex.create_search_index comments).map Prod.fst).Nodup ∧
    (∀ q : String,
      q ∈ (Preindex.create_search_index comments).map Prod.fst ↔
        q ∈ comments.map (fun c => c.comment_id)) ∧
    (∀ q : String,
      Preindex.assocFind (Preindex.create_search_index comments) q =
        (comments.reverse.find? (fun c => c.comment_id == q)).map
          Preindex.mkSearchEntry) ∧
    (∀ c : Preindex.EngagementRecord,
      (Preindex.mkSearchEntry c).words =
        Preindex.wsSplit (Preindex.toLowerStr
          (c.text ++ " " ++ c.author_display_name))) ∧
    (Preindex.mkSearchEntry searchDemoRecord).words =
      ["hello", "world", "johndoe"] := by
  refine ⟨?_, ?_, ?_, fun c => rfl, by decide⟩
  · exact csi_foldl_nodup comments [] (by simp)
  · intro q
    rw [Preindex.create_search_index, csi_foldl_keys]
    simp [Preindex.assocFind]
  · intro q
    rw [Preindex.create_search_index, csi_foldl_find]
    simp [Preindex.assocFind]
